import Mathlib

/-!
Verification of the archiving/merge subsystem of the gtfs-scraper repository
(src/archive.go), against its natural-language specification.

Shallow embedding conventions:
* A Go time.Time value is embedded as an Int of Unix seconds.  The Go zero
  time (January 1, year 1, 00:00:00 UTC) is the instant goZeroSec; the Go
  methods IsZero / Before / After become (= goZeroSec) / (<) / (>).
* A store row (table vehicle_positions) is embedded as a VehiclePosition
  carrying the fields the archiver inspects (vehicle_id, timestamp) plus
  trip_id, which distinguishes otherwise identical rows (the store's only
  uniqueness constraint is UNIQUE(trip_id, timestamp)).  The remaining
  columns are carried through the merge unchanged and are elided.
  StructScan plus time.Unix(vp.TimestampUnix, 0) is the identity here.
* A parquet file is embedded as a PartFile: its row list together with the
  row count reported by the reader (footer metadata), which the code
  compares against the number of rows actually copied.
* The filesystem is a map from locations to optional files; each month has
  a final location (vehicle_positions.parquet) and a staging location
  (vehicle_positions.parquet.tmp).  A merge is modelled as the list of
  file operations the code performs, applied in order.
* SQL result order and Go map iteration order are unspecified; the model
  determinizes both (store list order, first-occurrence vehicle order).
-/

namespace GtfsScraper

/-- Unix seconds of the Go zero time.Time (January 1, year 1 UTC). -/
def goZeroSec : Int := -62135596800

/-- The rowGroupSize tuning constant from src/archive.go. -/
def rowGroupSize : Nat := 1000000

/-- One vehicle_positions row, as read by partitionQuery
(src/archive.go lines 48-71) and written to partition files. -/
structure VehiclePosition where
  tripId : String
  vehicleId : String
  timestamp : Int
deriving DecidableEq

/-- A partition file: its rows, plus the row count the parquet reader
reports from file metadata (oldReader.NumRows in src/archive.go). -/
structure PartFile where
  rows : List VehiclePosition
  numRows : Nat
deriving DecidableEq

/-- A (year, month) partition key; a period in src/archive.go is the
first instant of such a month. -/
structure Month where
  year : Int
  month : Int
deriving DecidableEq

/-- Days from the civil epoch 1970-01-01 of a proleptic-Gregorian date,
as computed by Go's time package and SQLite's strftime. -/
def daysFromCivil (y m d : Int) : Int :=
  let y' := if m ≤ 2 then y - 1 else y
  let era := Int.fdiv y' 400
  let yoe := y' - era * 400
  let mp := if m ≤ 2 then m + 9 else m - 3
  let doy := Int.fdiv (153 * mp + 2) 5 + d - 1
  let doe := yoe * 365 + Int.fdiv yoe 4 - Int.fdiv yoe 100 + doy
  era * 146097 + doe - 719468

/-- Civil date (year, month, day) of a day number, inverse of
daysFromCivil. -/
def civilFromDays (z : Int) : Int × Int × Int :=
  let z' := z + 719468
  let era := Int.fdiv z' 146097
  let doe := z' - era * 146097
  let yoe := Int.fdiv (doe - Int.fdiv doe 1460 + Int.fdiv doe 36524 - Int.fdiv doe 146096) 365
  let y := yoe + era * 400
  let doy := doe - (365 * yoe + Int.fdiv yoe 4 - Int.fdiv yoe 100)
  let mp := Int.fdiv (5 * doy + 2) 153
  let d := doy - Int.fdiv (153 * mp + 2) 5 + 1
  let m := if mp < 10 then mp + 3 else mp - 9
  (if m ≤ 2 then y + 1 else y, m, d)

/-- Unix seconds of the first instant of a month (time.Parse of the
year-month string, or the period value iterated by archivePartitions). -/
def Month.startSec (p : Month) : Int := 86400 * daysFromCivil p.year p.month 1

/-- The month after p: period.AddDate(0, 1, 0) on a first-of-month value. -/
def nextMonth (p : Month) : Month :=
  if p.month = 12 then ⟨p.year + 1, 1⟩ else ⟨p.year, p.month + 1⟩

/-- Unix seconds of period.AddDate(0, 1, 0), the exclusive end of the
partition query window. -/
def Month.endSec (p : Month) : Int := (nextMonth p).startSec

/-- The month containing a Unix timestamp: strftime of the timestamp,
as used by archiveRangeQuery. -/
def monthOfSec (ts : Int) : Month :=
  let c := civilFromDays (Int.fdiv ts 86400)
  ⟨c.1, c.2.1⟩

/-- Month index used to bound the archive loop: months are iterated in
strictly increasing (year, month) order. -/
def monthIdx (p : Month) : Int := 12 * p.year + (p.month - 1)

/-- The empty watermark map (make(map[string]time.Time)). -/
def emptyWM : String → Option Int := fun _ => none

/-- One update of the watermark map for a row with non-empty vehicle id:
set on first sight, otherwise keep the later timestamp
(src/archive.go lines 93-95). -/
def mergeMax : Option Int → Int → Option Int
  | none, t => some t
  | some a, t => some (if t > a then t else a)

/-- findLastUpdates (src/archive.go lines 80-99): fold every row of the
existing file into the watermark map, skipping rows with an empty
vehicle id.  The buffered reader delivers the rows in file order. -/
def findLastUpdates (rows : List VehiclePosition) (m : String → Option Int) :
    String → Option Int :=
  rows.foldl
    (fun acc vp =>
      if vp.vehicleId = "" then acc
      else fun v => if v = vp.vehicleId then mergeMax (acc v) vp.timestamp else acc v)
    m

/-- The distinct non-empty vehicle ids of a file, one per watermark map
entry. -/
def wmVehicles (rows : List VehiclePosition) : List String :=
  ((rows.map VehiclePosition.vehicleId).filter (fun v => v ≠ "")).dedup

/-- The values of the watermark map built from a file (the multiset the
min-loop of src/archive.go lines 160-165 ranges over; Go map order is
unspecified, the model fixes one order). -/
def wmValues (rows : List VehiclePosition) : List Int :=
  (wmVehicles rows).filterMap (findLastUpdates rows emptyWM)

/-- The min-loop of src/archive.go lines 160-168: a zero time.Time
accumulator updated whenever it is still zero or a smaller value is seen,
falling back to the period start when the result is (still) zero. -/
def computeMinUpdateTime (rows : List VehiclePosition) (periodStart : Int) : Int :=
  let m := (wmValues rows).foldl
    (fun acc t => if acc = goZeroSec ∨ t < acc then t else acc) goZeroSec
  if m = goZeroSec then periodStart else m

/-- queryPartition (src/archive.go lines 70-76): all store rows with
timestamp in the half-open window from minUpdateTime to the period end. -/
def queriedRows (db : List VehiclePosition) (oldRows : List VehiclePosition)
    (p : Month) : List VehiclePosition :=
  let minT := computeMinUpdateTime oldRows p.startSec
  db.filter (fun r => minT ≤ r.timestamp ∧ r.timestamp < p.endSec)

/-- The rows the merge appends: queried rows whose vehicle has no
watermark entry or whose timestamp is strictly newer than it
(src/archive.go lines 186-192). -/
def appendedRows (db : List VehiclePosition) (oldRows : List VehiclePosition)
    (p : Month) : List VehiclePosition :=
  let wm := findLastUpdates oldRows emptyWM
  (queriedRows db oldRows p).filter (fun r =>
    match wm r.vehicleId with
    | some lu => lu < r.timestamp
    | none => true)

/-- Rows counted as skipped (queried but suppressed as duplicates). -/
def skippedCount (db : List VehiclePosition) (oldRows : List VehiclePosition)
    (p : Month) : Nat :=
  (queriedRows db oldRows p).length - (appendedRows db oldRows p).length

/-- The buffered writes of the append loop, recursing on a fuel bounded by
the row count (each full group consumes rowGroupSize > 0 rows, so the fuel
never runs out). -/
def rowGroupsAux : Nat → List VehiclePosition → List (List VehiclePosition)
  | 0, rows => [rows]
  | n + 1, rows =>
    if rowGroupSize ≤ rows.length then
      rows.take rowGroupSize :: rowGroupsAux n (rows.drop rowGroupSize)
    else [rows]

/-- The buffered writes of the append loop (src/archive.go lines 175-208):
full groups of exactly rowGroupSize rows flushed as the buffer fills, then
one final write of the remaining partial (possibly empty) buffer. -/
def rowGroups (rows : List VehiclePosition) : List (List VehiclePosition) :=
  rowGroupsAux rows.length rows

/-- A filesystem location: the final partition path of a month, or its
staging path (final path + ".tmp").  Distinct months have distinct
directories (year=%04d/month=%02d), so locations are keyed by month. -/
inductive Loc
  | final (p : Month)
  | staging (p : Month)
deriving DecidableEq

/-- The filesystem: contents of each location. -/
def FsState := Loc → Option PartFile

/-- One file operation performed by the merge. -/
inductive FsOp
  | mkdirAll (p : Month)
  | create (l : Loc)
  | writeRows (l : Loc) (rows : List VehiclePosition)
  | rename (src : Loc) (dst : Loc)
deriving DecidableEq

/-- Effect of one file operation.  create truncates; writeRows appends a
flushed batch (the written file's metadata count tracks its rows);
rename moves src over dst (a no-op when they are the same path, as in the
fresh-file case where stagingPath == filePath). -/
def applyOp (fs : FsState) : FsOp → FsState
  | .mkdirAll _ => fs
  | .create l => fun l' => if l' = l then some ⟨[], 0⟩ else fs l'
  | .writeRows l rows => fun l' =>
      if l' = l then
        match fs l with
        | some f => some ⟨f.rows ++ rows, f.numRows + rows.length⟩
        | none => some ⟨rows, rows.length⟩
      else fs l'
  | .rename src dst =>
      if src = dst then fs
      else fun l' => if l' = dst then fs src else if l' = src then none else fs l'

/-- Apply a list of file operations in order. -/
def applyOps (fs : FsState) (ops : List FsOp) : FsState :=
  ops.foldl applyOp fs

/-- Result of one partition merge. -/
structure MergeResult where
  fs : FsState
  ops : List FsOp
  nNew : Nat
  nSkipped : Nat
  panicked : Bool

/-- writePartition (src/archive.go lines 101-213).  With no existing file
the staging path is the final path itself; with an existing file the
watermark map is built from it, its rows are stream-copied to the staging
path, and a mismatch between the reader-reported row count and the number
of rows copied is a fatal panic (the run halts before any further
operation).  Otherwise the queried rows that survive the watermark filter
are appended in row groups and the staging file is renamed over the final
path. -/
def writePartition (db : List VehiclePosition) (fs : FsState) (p : Month) :
    MergeResult :=
  match fs (Loc.final p) with
  | none =>
    let appended := appendedRows db [] p
    let ops : List FsOp :=
      FsOp.mkdirAll p :: FsOp.create (Loc.final p) ::
        (rowGroups appended).map (FsOp.writeRows (Loc.final p)) ++
        [FsOp.rename (Loc.final p) (Loc.final p)]
    ⟨applyOps fs ops, ops, appended.length, skippedCount db [] p, false⟩
  | some old =>
    if old.numRows = old.rows.length then
      let appended := appendedRows db old.rows p
      let ops : List FsOp :=
        FsOp.mkdirAll p :: FsOp.create (Loc.staging p) ::
          FsOp.writeRows (Loc.staging p) old.rows ::
          (rowGroups appended).map (FsOp.writeRows (Loc.staging p)) ++
          [FsOp.rename (Loc.staging p) (Loc.final p)]
      ⟨applyOps fs ops, ops, appended.length, skippedCount db old.rows p, false⟩
    else
      let ops : List FsOp :=
        [FsOp.mkdirAll p, FsOp.create (Loc.staging p),
         FsOp.writeRows (Loc.staging p) old.rows]
      ⟨applyOps fs ops, ops, 0, 0, true⟩

/-- Result of a whole archive run. -/
structure RunResult where
  fs : FsState
  ops : List FsOp
  nNew : Nat
  panicked : Bool

/-- The month loop of archivePartitions (src/archive.go lines 224-231):
process each month in order, halting on a panic. -/
def runMonths (db : List VehiclePosition) : List Month → FsState → RunResult
  | [], fs => ⟨fs, [], 0, false⟩
  | p :: rest, fs =>
    let r := writePartition db fs p
    if r.panicked then ⟨r.fs, r.ops, r.nNew, true⟩
    else
      let rr := runMonths db rest r.fs
      ⟨rr.fs, r.ops ++ rr.ops, r.nNew + rr.nNew, rr.panicked⟩

/-- The iterated periods: from the start month while the period does not
exceed the end month, stepping one month.  The loop guard compares the
period instants; the fuel is the month-index distance, exactly the number
of iterations the guard admits for calendar-valid months. -/
def monthRangeFuel : Nat → Month → Month → List Month
  | 0, _, _ => []
  | n + 1, p, e =>
    if e.startSec < p.startSec then []
    else p :: monthRangeFuel n (nextMonth p) e

/-- The list of months the archive loop visits. -/
def monthRange (s e : Month) : List Month :=
  monthRangeFuel ((monthIdx e - monthIdx s).toNat + 1) s e

/-- findArchiveRange (src/archive.go lines 27-46): strftime months of the
minimum and maximum timestamp among rows with timestamp > 0.  When no such
row exists the aggregate strings are empty and the function returns the
zero time.Time values with a nil error, i.e. the month of the Go zero
time: year 1, January. -/
def findArchiveRange (db : List VehiclePosition) : Month × Month :=
  match (db.filter (fun r => 0 < r.timestamp)).map VehiclePosition.timestamp with
  | [] => (⟨1, 1⟩, ⟨1, 1⟩)
  | t :: rest => (monthOfSec (rest.foldl min t), monthOfSec (rest.foldl max t))

/-- Whether the store holds any row with a valid (positive) timestamp. -/
def hasValidData (db : List VehiclePosition) : Bool :=
  db.any (fun r => 0 < r.timestamp)

/-- archivePartitions (src/archive.go lines 215-233). -/
def archivePartitions (db : List VehiclePosition) (fs : FsState) : RunResult :=
  let r := findArchiveRange db
  runMonths db (monthRange r.1 r.2) fs

/-- The row list of the partition file a successful merge produces: the
copied pre-existing rows followed by the appended new rows. -/
def mergedRows (db oldRows : List VehiclePosition) (p : Month) :
    List VehiclePosition :=
  oldRows ++ appendedRows db oldRows p

/-- Whether a file operation can change the contents at a location. -/
def opWritesLoc : FsOp → Loc → Bool
  | .mkdirAll _, _ => false
  | .create l', l => l' = l
  | .writeRows l' _, l => l' = l
  | .rename src dst, l => if src = dst then false else l = src ∨ l = dst

/-- Store rows the archiver handles without its two blind spots: rows
carry a non-empty vehicle id (so the watermark dedup can see them) and
never the Go zero instant (the sentinel of the min-loop). -/
def WFdb (db : List VehiclePosition) : Prop :=
  ∀ r ∈ db, r.vehicleId ≠ "" ∧ r.timestamp ≠ goZeroSec

/-- Well-formed filesystem: every final partition file has consistent
reader metadata and no row at the Go zero instant. -/
def WFfs (fs : FsState) : Prop :=
  ∀ p f, fs (Loc.final p) = some f →
    f.numRows = f.rows.length ∧ ∀ r ∈ f.rows, r.timestamp ≠ goZeroSec

/-- A partition file on which a further merge of the same month and store
is a no-op. -/
def StableAt (db : List VehiclePosition) (p : Month) (f : PartFile) : Prop :=
  appendedRows db f.rows p = [] ∧ f.numRows = f.rows.length ∧
    ∀ r ∈ f.rows, r.timestamp ≠ goZeroSec

/-- The empty filesystem. -/
def emptyFs : FsState := fun _ => none

/-! ## Watermark map characterization -/

/-- The timestamps of the rows of one vehicle, in file order. -/
def tsOf (v : String) (rows : List VehiclePosition) : List Int :=
  (rows.filter (fun r => r.vehicleId = v)).map VehiclePosition.timestamp

theorem findLastUpdates_empty_id (rows : List VehiclePosition)
    (m : String → Option Int) : findLastUpdates rows m "" = m "" := by
  induction rows generalizing m with
  | nil => rfl
  | cons vp rest ih =>
    simp only [findLastUpdates, List.foldl_cons] at *
    by_cases h : vp.vehicleId = ""
    · simp only [h, if_pos rfl]
      exact ih m
    · simp only [if_neg h]
      rw [ih (fun v => if v = vp.vehicleId then mergeMax (m v) vp.timestamp else m v)]
      have hne : ¬ ("" : String) = vp.vehicleId := fun hc => h hc.symm
      simp [hne]

theorem tsOf_cons (v : String) (vp : VehiclePosition)
    (rest : List VehiclePosition) :
    tsOf v (vp :: rest) =
      if vp.vehicleId = v then vp.timestamp :: tsOf v rest else tsOf v rest := by
  simp only [tsOf, List.filter_cons]
  by_cases h : vp.vehicleId = v <;> simp [h]

theorem findLastUpdates_eq_fold (rows : List VehiclePosition)
    (m : String → Option Int) (v : String) (hv : v ≠ "") :
    findLastUpdates rows m v = (tsOf v rows).foldl mergeMax (m v) := by
  induction rows generalizing m with
  | nil => rfl
  | cons vp rest ih =>
    simp only [findLastUpdates, List.foldl_cons] at *
    rw [tsOf_cons]
    by_cases h : vp.vehicleId = ""
    · have hne : ¬ vp.vehicleId = v := fun hc => hv (by rw [← hc]; exact h)
      rw [if_pos h, if_neg hne]
      exact ih m
    · simp only [if_neg h]
      rw [ih]
      by_cases hc : vp.vehicleId = v
      · simp only [if_pos hc, List.foldl_cons, if_pos hc.symm]
      · have hcs : ¬ v = vp.vehicleId := fun hx => hc hx.symm
        simp only [if_neg hc, if_neg hcs]

theorem foldl_mergeMax_char (l : List Int) (o : Option Int) :
    (l.foldl mergeMax o = none ↔ (l = [] ∧ o = none)) ∧
    (∀ t, l.foldl mergeMax o = some t →
      ((t ∈ l ∨ o = some t) ∧ (∀ u ∈ l, u ≤ t) ∧ (∀ a, o = some a → a ≤ t))) := by
  induction l generalizing o with
  | nil =>
    constructor
    · simp
    · intro t ht
      simp only [List.foldl_nil] at ht
      refine ⟨Or.inr ht, by simp, fun a ha => ?_⟩
      rw [ht] at ha
      have : t = a := Option.some_inj.mp ha
      omega
  | cons x xs ih =>
    constructor
    · simp only [List.foldl_cons]
      constructor
      · intro h
        have h2 := ((ih (mergeMax o x)).1.mp h).2
        cases o with
        | none => simp [mergeMax] at h2
        | some a => simp [mergeMax] at h2
      · rintro ⟨h, -⟩
        exact absurd h (List.cons_ne_nil x xs)
    · intro t ht
      simp only [List.foldl_cons] at ht
      obtain ⟨hmem, hub, hinit⟩ := (ih (mergeMax o x)).2 t ht
      refine ⟨?_, ?_, ?_⟩
      · rcases hmem with h | h
        · exact Or.inl (List.mem_cons_of_mem x h)
        · cases o with
          | none =>
            simp only [mergeMax] at h
            have : x = t := Option.some_inj.mp h
            exact Or.inl (by rw [← this]; exact List.mem_cons_self x xs)
          | some a =>
            simp only [mergeMax] at h
            split at h
            · have : x = t := Option.some_inj.mp h
              exact Or.inl (by rw [← this]; exact List.mem_cons_self x xs)
            · exact Or.inr h
      · intro u hu
        rcases List.mem_cons.mp hu with h | h
        · subst h
          cases o with
          | none => exact hinit u rfl
          | some a =>
            have := hinit (if u > a then u else a) rfl
            split at this
            · exact this
            · omega
        · exact hub u h
      · intro a ha
        subst ha
        have := hinit (if x > a then x else a) rfl
        split at this
        · omega
        · exact this

/-- Watermark map entries come from actual rows and bound them: the
characterization used throughout. -/
theorem wm_some_char (rows : List VehiclePosition) (v : String) (hv : v ≠ "")
    (t : Int) (ht : findLastUpdates rows emptyWM v = some t) :
    (∃ r ∈ rows, r.vehicleId = v ∧ r.timestamp = t) ∧
      (∀ r ∈ rows, r.vehicleId = v → r.timestamp ≤ t) := by
  rw [findLastUpdates_eq_fold rows emptyWM v hv] at ht
  obtain ⟨hmem, hub, -⟩ := (foldl_mergeMax_char (tsOf v rows) (emptyWM v)).2 t ht
  constructor
  · rcases hmem with h | h
    · simp only [tsOf, List.mem_map, List.mem_filter, decide_eq_true_eq] at h
      obtain ⟨r, ⟨hr, hrv⟩, hrt⟩ := h
      exact ⟨r, hr, hrv, hrt⟩
    · exact absurd h (by simp [emptyWM])
  · intro r hr hrv
    exact hub r.timestamp (by
      simp only [tsOf, List.mem_map, List.mem_filter, decide_eq_true_eq]
      exact ⟨r, ⟨hr, hrv⟩, rfl⟩)

theorem wm_none_iff (rows : List VehiclePosition) (v : String) (hv : v ≠ "") :
    findLastUpdates rows emptyWM v = none ↔ ∀ r ∈ rows, r.vehicleId ≠ v := by
  rw [findLastUpdates_eq_fold rows emptyWM v hv]
  rw [(foldl_mergeMax_char (tsOf v rows) (emptyWM v)).1]
  simp only [emptyWM, and_true]
  constructor
  · intro h r hr hrv
    have : r.timestamp ∈ tsOf v rows := by
      simp only [tsOf, List.mem_map, List.mem_filter, decide_eq_true_eq]
      exact ⟨r, ⟨hr, hrv⟩, rfl⟩
    rw [h] at this
    exact absurd this (List.not_mem_nil _)
  · intro h
    rw [List.eq_nil_iff_forall_not_mem]
    intro t ht
    simp only [tsOf, List.mem_map, List.mem_filter, decide_eq_true_eq] at ht
    obtain ⟨r, ⟨hr, hrv⟩, -⟩ := ht
    exact h r hr hrv

/-- Appending rows to a file can only raise an existing watermark. -/
theorem wm_append_mono (xs ys : List VehiclePosition) (v : String) (hv : v ≠ "")
    (a : Int) (ha : findLastUpdates xs emptyWM v = some a) :
    ∃ t, findLastUpdates (xs ++ ys) emptyWM v = some t ∧ a ≤ t := by
  rw [findLastUpdates_eq_fold _ emptyWM v hv] at ha ⊢
  have hsplit : tsOf v (xs ++ ys) = tsOf v xs ++ tsOf v ys := by
    simp [tsOf, List.filter_append]
  rw [hsplit, List.foldl_append, ha]
  cases hres : (tsOf v ys).foldl mergeMax (some a) with
  | none =>
    have := (foldl_mergeMax_char (tsOf v ys) (some a)).1.mp hres
    exact absurd this.2 (by simp)
  | some t =>
    exact ⟨t, rfl, (foldl_mergeMax_char (tsOf v ys) (some a)).2 t hres |>.2.2 a rfl⟩

/-- Claim C3: after fully reading an existing partition file, the watermark
entry of every non-empty vehicle id equals the maximum timestamp among that
vehicle's rows (present exactly when the vehicle has a row), and rows with
an empty vehicle id contribute no entry. -/
theorem watermark_construction (rows : List VehiclePosition) (v : String) :
    findLastUpdates rows emptyWM "" = none ∧
    (v ≠ "" →
      ((findLastUpdates rows emptyWM v = none ↔ ∀ r ∈ rows, r.vehicleId ≠ v) ∧
        ∀ t, findLastUpdates rows emptyWM v = some t →
          (∃ r ∈ rows, r.vehicleId = v ∧ r.timestamp = t) ∧
            ∀ r ∈ rows, r.vehicleId = v → r.timestamp ≤ t)) := by
  refine ⟨by rw [findLastUpdates_empty_id]; rfl, fun hv => ⟨wm_none_iff rows v hv, ?_⟩⟩
  intro t ht
  exact wm_some_char rows v hv t ht

/-- Witness for the C3 theorem at a concrete file. -/
theorem watermark_construction_witness :
    findLastUpdates [⟨"x", "a", 5⟩, ⟨"y", "a", 9⟩] emptyWM "a" = some 9 ∧
      (9 : Int) ≤ 9 := by
  have h := (watermark_construction [⟨"x", "a", 5⟩, ⟨"y", "a", 9⟩] "a").2
    (by decide)
  refine ⟨?_, le_refl 9⟩
  cases hwm : findLastUpdates [⟨"x", "a", 5⟩, ⟨"y", "a", 9⟩] emptyWM "a" with
  | none =>
    have := h.1.mp hwm (⟨"x", "a", 5⟩ : VehiclePosition) (by simp)
    simp at this
  | some t =>
    obtain ⟨⟨r, hr, -, hrt⟩, hub⟩ := h.2 t hwm
    have h9 := hub ⟨"y", "a", 9⟩ (by simp) rfl
    have ht9 : t ≤ 9 := by
      rcases List.mem_cons.mp hr with h5 | h59
      · rw [h5] at hrt
        have : (5 : Int) = t := hrt
        omega
      · rcases List.mem_cons.mp h59 with h9' | hn
        · rw [h9'] at hrt
          have : (9 : Int) = t := hrt
          omega
        · simp at hn
    have : t = 9 := le_antisymm ht9 h9
    rw [this]

/-! ## Query-window (minUpdateTime) characterization -/

theorem mem_wmValues_iff (rows : List VehiclePosition) (t : Int) :
    t ∈ wmValues rows ↔
      ∃ v, v ≠ "" ∧ findLastUpdates rows emptyWM v = some t := by
  simp only [wmValues, List.mem_filterMap]
  constructor
  · rintro ⟨v, hv, hwm⟩
    simp only [wmVehicles, List.mem_dedup, List.mem_filter, List.mem_map,
      decide_eq_true_eq] at hv
    exact ⟨v, hv.2, hwm⟩
  · rintro ⟨v, hv, hwm⟩
    refine ⟨v, ?_, hwm⟩
    obtain ⟨⟨r, hr, hrv, -⟩, -⟩ := wm_some_char rows v hv t hwm
    simp only [wmVehicles, List.mem_dedup, List.mem_filter, List.mem_map,
      decide_eq_true_eq]
    exact ⟨⟨r, hr, hrv⟩, hv⟩

theorem wmValues_ts (rows : List VehiclePosition) (t : Int)
    (h : t ∈ wmValues rows) : ∃ r ∈ rows, r.timestamp = t := by
  obtain ⟨v, hv, hwm⟩ := (mem_wmValues_iff rows t).mp h
  obtain ⟨⟨r, hr, -, hrt⟩, -⟩ := wm_some_char rows v hv t hwm
  exact ⟨r, hr, hrt⟩

theorem goZero_not_mem_wmValues (rows : List VehiclePosition)
    (h : ∀ r ∈ rows, r.timestamp ≠ goZeroSec) : goZeroSec ∉ wmValues rows := by
  intro hmem
  obtain ⟨r, hr, hrt⟩ := wmValues_ts rows goZeroSec hmem
  exact h r hr hrt

theorem foldl_minAcc_char (l : List Int) (acc : Int) (hacc : acc ≠ goZeroSec)
    (hl : goZeroSec ∉ l) :
    (l.foldl (fun acc t => if acc = goZeroSec ∨ t < acc then t else acc) acc
        ≠ goZeroSec) ∧
    (l.foldl (fun acc t => if acc = goZeroSec ∨ t < acc then t else acc) acc
        = acc ∨
      l.foldl (fun acc t => if acc = goZeroSec ∨ t < acc then t else acc) acc
        ∈ l) ∧
    (l.foldl (fun acc t => if acc = goZeroSec ∨ t < acc then t else acc) acc
        ≤ acc) ∧
    (∀ t ∈ l,
      l.foldl (fun acc t => if acc = goZeroSec ∨ t < acc then t else acc) acc
        ≤ t) := by
  induction l generalizing acc with
  | nil => exact ⟨hacc, Or.inl rfl, le_refl acc, by simp⟩
  | cons x xs ih =>
    have hx : x ≠ goZeroSec := by
      intro hc
      subst hc
      exact hl (List.mem_cons_self _ _)
    have hxs : goZeroSec ∉ xs := fun hc => hl (List.mem_cons_of_mem x hc)
    simp only [List.foldl_cons]
    by_cases hb : acc = goZeroSec ∨ x < acc
    · rw [if_pos hb]
      obtain ⟨h1, h2, h3, h4⟩ := ih x hx hxs
      have hxacc : x ≤ acc := by
        rcases hb with hb | hb
        · exact absurd hb hacc
        · omega
      refine ⟨h1, ?_, le_trans h3 hxacc, ?_⟩
      · rcases h2 with h2 | h2
        · exact Or.inr (by rw [h2]; exact List.mem_cons_self x xs)
        · exact Or.inr (List.mem_cons_of_mem x h2)
      · intro t ht
        rcases List.mem_cons.mp ht with ht | ht
        · rw [ht]; exact h3
        · exact h4 t ht
    · rw [if_neg hb]
      push_neg at hb
      obtain ⟨h1, h2, h3, h4⟩ := ih acc hacc hxs
      refine ⟨h1, ?_, h3, ?_⟩
      · rcases h2 with h2 | h2
        · exact Or.inl h2
        · exact Or.inr (List.mem_cons_of_mem x h2)
      · intro t ht
        rcases List.mem_cons.mp ht with ht | ht
        · rw [ht]; exact le_trans h3 hb.2
        · exact h4 t ht

theorem minUpdateFold_char (l : List Int) (s : Int) (hgz : goZeroSec ∉ l) :
    (l = [] →
      (if l.foldl (fun acc t => if acc = goZeroSec ∨ t < acc then t else acc)
            goZeroSec = goZeroSec then s
       else l.foldl (fun acc t => if acc = goZeroSec ∨ t < acc then t else acc)
            goZeroSec) = s) ∧
    (∀ t ∈ l,
      (if l.foldl (fun acc t => if acc = goZeroSec ∨ t < acc then t else acc)
            goZeroSec = goZeroSec then s
       else l.foldl (fun acc t => if acc = goZeroSec ∨ t < acc then t else acc)
            goZeroSec) ≤ t) ∧
    (l ≠ [] →
      (if l.foldl (fun acc t => if acc = goZeroSec ∨ t < acc then t else acc)
            goZeroSec = goZeroSec then s
       else l.foldl (fun acc t => if acc = goZeroSec ∨ t < acc then t else acc)
            goZeroSec) ∈ l) := by
  cases l with
  | nil => simp
  | cons x xs =>
    have hx : x ≠ goZeroSec := by
      intro hc
      subst hc
      exact hgz (List.mem_cons_self _ _)
    have hxs : goZeroSec ∉ xs := fun hc => hgz (List.mem_cons_of_mem x hc)
    obtain ⟨h1, h2, h3, h4⟩ := foldl_minAcc_char xs x hx hxs
    have hstep : (x :: xs).foldl
        (fun acc t => if acc = goZeroSec ∨ t < acc then t else acc) goZeroSec =
        xs.foldl (fun acc t => if acc = goZeroSec ∨ t < acc then t else acc) x := by
      simp only [List.foldl_cons]
      congr 1
    rw [hstep, if_neg h1]
    refine ⟨fun hc => absurd hc (List.cons_ne_nil x xs), ?_, fun _ => ?_⟩
    · intro t ht
      rcases List.mem_cons.mp ht with ht | ht
      · rw [ht]; exact h3
      · exact h4 t ht
    · rcases h2 with h2 | h2
      · rw [h2]; exact List.mem_cons_self x xs
      · exact List.mem_cons_of_mem x h2

theorem computeMinUpdateTime_spec (rows : List VehiclePosition) (s : Int)
    (hgz : goZeroSec ∉ wmValues rows) :
    (wmValues rows = [] → computeMinUpdateTime rows s = s) ∧
    (∀ t ∈ wmValues rows, computeMinUpdateTime rows s ≤ t) ∧
    (wmValues rows ≠ [] → computeMinUpdateTime rows s ∈ wmValues rows) := by
  exact minUpdateFold_char (wmValues rows) s hgz

/-- Claim C4, counterexample: with an existing file holding one row at the
Go zero instant, the watermark map has exactly one entry (its minimum is
goZeroSec), yet the merge computes minUpdateTime as the period start (here
the 1970-01 period, instant 0), so the row sitting exactly at the
watermark minimum is not even inside the query window. -/
theorem query_window_cex :
    wmValues [⟨"t", "a", goZeroSec⟩] = [goZeroSec] ∧
    computeMinUpdateTime [⟨"t", "a", goZeroSec⟩] (Month.startSec ⟨1970, 1⟩) =
      Month.startSec ⟨1970, 1⟩ ∧
    Month.startSec ⟨1970, 1⟩ ≠ goZeroSec ∧
    queriedRows [⟨"u", "a", goZeroSec⟩] [⟨"t", "a", goZeroSec⟩] ⟨1970, 1⟩ = [] := by
  decide

/-- Claim C4, amended: provided no watermark entry equals the Go zero
instant (the sentinel the min-loop reuses), minUpdateTime is the minimum
across all watermark entries, the period start when the map is empty, and
the store query returns exactly the rows with timestamp in the half-open
window from minUpdateTime to periodStart plus one month. -/
theorem query_window_amended (db rows : List VehiclePosition) (p : Month)
    (hgz : goZeroSec ∉ wmValues rows) :
    (wmValues rows = [] → computeMinUpdateTime rows p.startSec = p.startSec) ∧
    (wmValues rows ≠ [] →
      computeMinUpdateTime rows p.startSec ∈ wmValues rows ∧
        ∀ t ∈ wmValues rows, computeMinUpdateTime rows p.startSec ≤ t) ∧
    (∀ r, r ∈ queriedRows db rows p ↔
      r ∈ db ∧ computeMinUpdateTime rows p.startSec ≤ r.timestamp ∧
        r.timestamp < p.endSec) := by
  obtain ⟨h1, h2, h3⟩ := computeMinUpdateTime_spec rows p.startSec hgz
  refine ⟨h1, fun hne => ⟨h3 hne, h2⟩, fun r => ?_⟩
  simp [queriedRows, List.mem_filter]

/-- Witness for the amended C4 theorem at a concrete merge. -/
theorem query_window_amended_witness :
    computeMinUpdateTime [⟨"x", "a", 5⟩] (Month.startSec ⟨1970, 1⟩) = 5 ∧
    (⟨"y", "b", 7⟩ : VehiclePosition) ∈
      queriedRows [⟨"y", "b", 7⟩] [⟨"x", "a", 5⟩] ⟨1970, 1⟩ := by
  have h := query_window_amended [⟨"y", "b", 7⟩] [⟨"x", "a", 5⟩] ⟨1970, 1⟩
    (by decide)
  have hval : wmValues [(⟨"x", "a", 5⟩ : VehiclePosition)] = [5] := by decide
  have h5 : computeMinUpdateTime [⟨"x", "a", 5⟩] (Month.startSec ⟨1970, 1⟩) = 5 := by
    have hmem := (h.2.1 (by rw [hval]; exact List.cons_ne_nil 5 [])).1
    rw [hval] at hmem
    exact List.mem_singleton.mp hmem
  refine ⟨h5, (h.2.2 ⟨"y", "b", 7⟩).mpr ⟨List.mem_cons_self _ _, ?_, by decide⟩⟩
  rw [h5]
  decide

/-! ## Merge dedup and stability -/

theorem mem_appendedRows_iff (db oldRows : List VehiclePosition) (p : Month)
    (r : VehiclePosition) :
    r ∈ appendedRows db oldRows p ↔
      r ∈ db ∧ computeMinUpdateTime oldRows p.startSec ≤ r.timestamp ∧
        r.timestamp < p.endSec ∧
        ∀ lu, findLastUpdates oldRows emptyWM r.vehicleId = some lu →
          lu < r.timestamp := by
  simp only [appendedRows, queriedRows, List.mem_filter, decide_eq_true_eq]
  cases hwm : findLastUpdates oldRows emptyWM r.vehicleId with
  | none => simp [and_assoc]
  | some lu => simp [and_assoc]

/-- A merge never appends a row whose vehicle already has a watermark at
or above its timestamp: the heart of claims C1, C2 and C5. -/
theorem merge_stable (db oldRows : List VehiclePosition) (p : Month)
    (Hdb : WFdb db)
    (Hold : ∀ r ∈ oldRows, r.timestamp ≠ goZeroSec) :
    appendedRows db (mergedRows db oldRows p) p = [] := by
  have hM : mergedRows db oldRows p = oldRows ++ appendedRows db oldRows p := rfl
  rw [List.eq_nil_iff_forall_not_mem]
  intro r hr
  rw [mem_appendedRows_iff] at hr
  obtain ⟨hrdb, hlo, hhi, hpass⟩ := hr
  obtain ⟨hrv, hrgz⟩ := Hdb r hrdb
  have HgzM : ∀ x ∈ mergedRows db oldRows p, x.timestamp ≠ goZeroSec := by
    intro x hx
    rw [hM] at hx
    rcases List.mem_append.mp hx with h | h
    · exact Hold x h
    · exact (Hdb x ((mem_appendedRows_iff db oldRows p x).mp h).1).2
  have hgzOld : goZeroSec ∉ wmValues oldRows := goZero_not_mem_wmValues _ Hold
  have hgzM : goZeroSec ∉ wmValues (mergedRows db oldRows p) :=
    goZero_not_mem_wmValues _ HgzM
  obtain ⟨hA1, hA2, hA3⟩ := computeMinUpdateTime_spec oldRows p.startSec hgzOld
  obtain ⟨hB1, hB2, hB3⟩ :=
    computeMinUpdateTime_spec (mergedRows db oldRows p) p.startSec hgzM
  have hm12 : computeMinUpdateTime oldRows p.startSec ≤
      computeMinUpdateTime (mergedRows db oldRows p) p.startSec := by
    cases hvM : wmValues (mergedRows db oldRows p) with
    | nil =>
      have hvO : wmValues oldRows = [] := by
        by_contra hne
        obtain ⟨t, ht⟩ := List.exists_mem_of_ne_nil _ hne
        obtain ⟨v, hv, hwm⟩ := (mem_wmValues_iff oldRows t).mp ht
        obtain ⟨t2, ht2, -⟩ :=
          wm_append_mono oldRows (appendedRows db oldRows p) v hv t hwm
        have hmem : t2 ∈ wmValues (mergedRows db oldRows p) :=
          (mem_wmValues_iff _ t2).mpr ⟨v, hv, by rw [hM]; exact ht2⟩
        rw [hvM] at hmem
        exact absurd hmem (List.not_mem_nil _)
      rw [hA1 hvO, hB1 hvM]
    | cons t0 ts0 =>
      have hge : ∀ t ∈ wmValues (mergedRows db oldRows p),
          computeMinUpdateTime oldRows p.startSec ≤ t := by
        intro t ht
        obtain ⟨v, hv, hwmMv⟩ := (mem_wmValues_iff _ t).mp ht
        obtain ⟨⟨x, hx, hxv, hxt⟩, -⟩ := wm_some_char _ v hv t hwmMv
        rw [hM] at hx
        rcases List.mem_append.mp hx with hxo | hxa
        · cases hwmO : findLastUpdates oldRows emptyWM v with
          | none =>
            exact absurd hxv ((wm_none_iff oldRows v hv).mp hwmO x hxo)
          | some a =>
            have ham1 := hA2 a ((mem_wmValues_iff oldRows a).mpr ⟨v, hv, hwmO⟩)
            obtain ⟨t2, ht2, ha2⟩ :=
              wm_append_mono oldRows (appendedRows db oldRows p) v hv a hwmO
            have ht2t : t2 = t := by
              rw [hM] at hwmMv
              rw [hwmMv] at ht2
              exact (Option.some_inj.mp ht2).symm
            omega
        · have hwin := ((mem_appendedRows_iff db oldRows p x).mp hxa).2.1
          omega
      exact hge _ (hB3 (by rw [hvM]; exact List.cons_ne_nil t0 ts0))
  have hwin1 : computeMinUpdateTime oldRows p.startSec ≤ r.timestamp :=
    le_trans hm12 hlo
  cases hwmM : findLastUpdates (mergedRows db oldRows p) emptyWM r.vehicleId with
  | none =>
    have hnoM := (wm_none_iff _ r.vehicleId hrv).mp hwmM
    have hwmOld : findLastUpdates oldRows emptyWM r.vehicleId = none := by
      cases hwmO : findLastUpdates oldRows emptyWM r.vehicleId with
      | none => rfl
      | some a =>
        obtain ⟨⟨x, hx, hxv, -⟩, -⟩ := wm_some_char oldRows r.vehicleId hrv a hwmO
        exact absurd hxv (hnoM x (by rw [hM]; exact List.mem_append_left _ hx))
    have hrApp : r ∈ appendedRows db oldRows p := by
      rw [mem_appendedRows_iff]
      refine ⟨hrdb, hwin1, hhi, fun lu hlu => ?_⟩
      rw [hwmOld] at hlu
      exact absurd hlu (by simp)
    exact hnoM r (by rw [hM]; exact List.mem_append_right _ hrApp) rfl
  | some lu =>
    have hlt : lu < r.timestamp := hpass lu hwmM
    obtain ⟨-, hub⟩ := wm_some_char _ r.vehicleId hrv lu hwmM
    have hrNotApp : r ∉ appendedRows db oldRows p := by
      intro hrA
      have := hub r (by rw [hM]; exact List.mem_append_right _ hrA) rfl
      omega
    cases hwmO : findLastUpdates oldRows emptyWM r.vehicleId with
    | none =>
      refine hrNotApp ?_
      rw [mem_appendedRows_iff]
      refine ⟨hrdb, hwin1, hhi, fun lu' h' => ?_⟩
      rw [hwmO] at h'
      exact absurd h' (by simp)
    | some lu1 =>
      by_cases hlt1 : lu1 < r.timestamp
      · refine hrNotApp ?_
        rw [mem_appendedRows_iff]
        refine ⟨hrdb, hwin1, hhi, fun lu' h' => ?_⟩
        rw [hwmO] at h'
        have : lu1 = lu' := Option.some_inj.mp h'
        omega
      · obtain ⟨t2, ht2, hle⟩ :=
          wm_append_mono oldRows (appendedRows db oldRows p) r.vehicleId hrv lu1 hwmO
        have ht2lu : t2 = lu := by
          rw [hM] at hwmM
          rw [hwmM] at ht2
          exact (Option.some_inj.mp ht2).symm
        omega

/-! ## File-operation bookkeeping -/

theorem applyOp_untouched (fs : FsState) (op : FsOp) (l : Loc)
    (h : opWritesLoc op l = false) : applyOp fs op l = fs l := by
  cases op with
  | mkdirAll p => rfl
  | create l' =>
    simp only [opWritesLoc, decide_eq_false_iff_not] at h
    simp only [applyOp, if_neg (fun hc : l = l' => h hc.symm)]
  | writeRows l' rows =>
    simp only [opWritesLoc, decide_eq_false_iff_not] at h
    simp only [applyOp, if_neg (fun hc : l = l' => h hc.symm)]
  | rename src dst =>
    by_cases hsd : src = dst
    · simp only [applyOp, if_pos hsd]
    · simp only [opWritesLoc, if_neg hsd, decide_eq_false_iff_not] at h
      push_neg at h
      simp only [applyOp, if_neg hsd, if_neg h.2, if_neg h.1]

theorem applyOps_untouched (ops : List FsOp) (fs : FsState) (l : Loc)
    (h : ∀ op ∈ ops, opWritesLoc op l = false) : applyOps fs ops l = fs l := by
  induction ops generalizing fs with
  | nil => rfl
  | cons op rest ih =>
    simp only [applyOps, List.foldl_cons] at ih ⊢
    rw [ih (applyOp fs op) (fun o ho => h o (List.mem_cons_of_mem op ho))]
    exact applyOp_untouched fs op l (h op (List.mem_cons_self op rest))

theorem rowGroups_join (xs : List VehiclePosition) : (rowGroups xs).flatten = xs := by
  have key : ∀ n (ys : List VehiclePosition), (rowGroupsAux n ys).flatten = ys := by
    intro n
    induction n with
    | zero =>
      intro ys
      simp [rowGroupsAux]
    | succ n ih =>
      intro ys
      rw [rowGroupsAux]
      by_cases hle : rowGroupSize ≤ ys.length
      · rw [if_pos hle]
        simp only [List.flatten_cons]
        rw [ih (ys.drop rowGroupSize)]
        exact List.take_append_drop _ _
      · rw [if_neg hle]
        simp
  exact key xs.length xs

theorem applyOps_writeGroups (gs : List (List VehiclePosition)) (fs : FsState)
    (l : Loc) (f : PartFile) (h : fs l = some f) :
    applyOps fs (gs.map (FsOp.writeRows l)) l =
      some ⟨f.rows ++ gs.flatten, f.numRows + gs.flatten.length⟩ := by
  induction gs generalizing fs f with
  | nil =>
    simp only [List.map_nil, applyOps, List.foldl_nil, List.flatten_nil,
      List.append_nil, List.length_nil, Nat.add_zero, h]
  | cons g gs ih =>
    simp only [List.map_cons, applyOps, List.foldl_cons]
    have hstep : applyOp fs (FsOp.writeRows l g) l =
        some ⟨f.rows ++ g, f.numRows + g.length⟩ := by
      simp [applyOp, h]
    have := ih (applyOp fs (FsOp.writeRows l g)) ⟨f.rows ++ g, f.numRows + g.length⟩ hstep
    simp only [applyOps] at this
    rw [this]
    simp only [List.flatten_cons, List.length_append, List.append_assoc]
    congr 2
    omega

theorem final_ne_staging (p q : Month) : Loc.final p ≠ Loc.staging q := by
  intro h
  exact Loc.noConfusion h

/-! ## writePartition characterization -/

theorem applyOps_split3 (fs : FsState) (a b : FsOp) (mid : List FsOp)
    (last : FsOp) :
    applyOps fs ((a :: b :: mid) ++ [last]) =
      applyOp (applyOps (applyOp (applyOp fs a) b) mid) last := by
  show List.foldl applyOp fs ((a :: b :: mid) ++ [last]) = _
  rw [List.foldl_append]
  rfl

theorem applyOps_split4 (fs : FsState) (a b c : FsOp) (mid : List FsOp)
    (last : FsOp) :
    applyOps fs ((a :: b :: c :: mid) ++ [last]) =
      applyOp (applyOps (applyOp (applyOp (applyOp fs a) b) c) mid) last := by
  show List.foldl applyOp fs ((a :: b :: c :: mid) ++ [last]) = _
  rw [List.foldl_append]
  rfl

theorem wp_fresh (db : List VehiclePosition) (fs : FsState) (p : Month)
    (h : fs (Loc.final p) = none) :
    (writePartition db fs p).panicked = false ∧
    (writePartition db fs p).nNew = (appendedRows db [] p).length ∧
    (writePartition db fs p).fs (Loc.final p) =
      some ⟨appendedRows db [] p, (appendedRows db [] p).length⟩ ∧
    (∀ l, l ≠ Loc.final p → (writePartition db fs p).fs l = fs l) := by
  simp only [writePartition, h]
  have e1 : applyOp fs (FsOp.mkdirAll p) = fs := rfl
  have hcr : applyOp fs (FsOp.create (Loc.final p)) (Loc.final p) =
      some ⟨[], 0⟩ := by
    simp [applyOp]
  have hmid := applyOps_writeGroups (rowGroups (appendedRows db [] p))
    (applyOp fs (FsOp.create (Loc.final p))) (Loc.final p) ⟨[], 0⟩ hcr
  refine ⟨trivial, trivial, ?_, ?_⟩
  · rw [applyOps_split3, e1]
    have hre : ∀ g : FsState,
        applyOp g (FsOp.rename (Loc.final p) (Loc.final p)) = g := by
      intro g
      simp [applyOp]
    rw [hre, hmid, rowGroups_join]
    simp
  · intro l hl
    rw [applyOps_split3, e1]
    have hre : ∀ g : FsState,
        applyOp g (FsOp.rename (Loc.final p) (Loc.final p)) = g := by
      intro g
      simp [applyOp]
    rw [hre]
    have huntouched : ∀ op ∈ (rowGroups (appendedRows db [] p)).map
        (FsOp.writeRows (Loc.final p)), opWritesLoc op l = false := by
      intro op hop
      obtain ⟨g, -, rfl⟩ := List.mem_map.mp hop
      simp only [opWritesLoc, decide_eq_false_iff_not]
      exact fun hc => hl hc.symm
    rw [applyOps_untouched _ _ l huntouched]
    simp [applyOp, if_neg hl]

theorem wp_existing_ok (db : List VehiclePosition) (fs : FsState) (p : Month)
    (old : PartFile) (h : fs (Loc.final p) = some old)
    (hnum : old.numRows = old.rows.length) :
    (writePartition db fs p).panicked = false ∧
    (writePartition db fs p).nNew = (appendedRows db old.rows p).length ∧
    (writePartition db fs p).fs (Loc.final p) =
      some ⟨mergedRows db old.rows p, (mergedRows db old.rows p).length⟩ ∧
    (∀ l, l ≠ Loc.final p → l ≠ Loc.staging p →
      (writePartition db fs p).fs l = fs l) := by
  simp only [writePartition, h, if_pos hnum]
  have e1 : applyOp fs (FsOp.mkdirAll p) = fs := rfl
  have hcr : applyOp fs (FsOp.create (Loc.staging p)) (Loc.staging p) =
      some ⟨[], 0⟩ := by
    simp [applyOp]
  have hcp : applyOp (applyOp fs (FsOp.create (Loc.staging p)))
      (FsOp.writeRows (Loc.staging p) old.rows) (Loc.staging p) =
      some ⟨old.rows, old.rows.length⟩ := by
    simp [applyOp, hcr]
  have hmid := applyOps_writeGroups (rowGroups (appendedRows db old.rows p))
    (applyOp (applyOp fs (FsOp.create (Loc.staging p)))
      (FsOp.writeRows (Loc.staging p) old.rows))
    (Loc.staging p) ⟨old.rows, old.rows.length⟩ hcp
  have hSneF : Loc.staging p ≠ Loc.final p := fun hc =>
    (final_ne_staging p p) hc.symm
  refine ⟨trivial, trivial, ?_, ?_⟩
  · rw [applyOps_split4, e1]
    have hre : applyOp (applyOps (applyOp (applyOp fs
        (FsOp.create (Loc.staging p)))
        (FsOp.writeRows (Loc.staging p) old.rows))
        ((rowGroups (appendedRows db old.rows p)).map
          (FsOp.writeRows (Loc.staging p))))
        (FsOp.rename (Loc.staging p) (Loc.final p)) (Loc.final p) =
        applyOps (applyOp (applyOp fs (FsOp.create (Loc.staging p)))
          (FsOp.writeRows (Loc.staging p) old.rows))
          ((rowGroups (appendedRows db old.rows p)).map
            (FsOp.writeRows (Loc.staging p))) (Loc.staging p) := by
      simp [applyOp, if_neg hSneF]
    rw [hre, hmid, rowGroups_join]
    simp [mergedRows]
  · intro l hlF hlS
    rw [applyOps_split4, e1]
    have hre : applyOp (applyOps (applyOp (applyOp fs
        (FsOp.create (Loc.staging p)))
        (FsOp.writeRows (Loc.staging p) old.rows))
        ((rowGroups (appendedRows db old.rows p)).map
          (FsOp.writeRows (Loc.staging p))))
        (FsOp.rename (Loc.staging p) (Loc.final p)) l =
        applyOps (applyOp (applyOp fs (FsOp.create (Loc.staging p)))
          (FsOp.writeRows (Loc.staging p) old.rows))
          ((rowGroups (appendedRows db old.rows p)).map
            (FsOp.writeRows (Loc.staging p))) l := by
      simp [applyOp, if_neg hSneF, if_neg hlF, if_neg hlS]
    rw [hre]
    have huntouched : ∀ op ∈ (rowGroups (appendedRows db old.rows p)).map
        (FsOp.writeRows (Loc.staging p)), opWritesLoc op l = false := by
      intro op hop
      obtain ⟨g, -, rfl⟩ := List.mem_map.mp hop
      simp only [opWritesLoc, decide_eq_false_iff_not]
      exact fun hc => hlS hc.symm
    rw [applyOps_untouched _ _ l huntouched]
    simp [applyOp, if_neg hlS]

theorem wp_existing_panic (db : List VehiclePosition) (fs : FsState)
    (p : Month) (old : PartFile) (h : fs (Loc.final p) = some old)
    (hnum : ¬ old.numRows = old.rows.length) :
    (writePartition db fs p).panicked = true ∧
    (writePartition db fs p).nNew = 0 ∧
    (∀ l, l ≠ Loc.staging p → (writePartition db fs p).fs l = fs l) := by
  simp only [writePartition, h, if_neg hnum]
  refine ⟨trivial, trivial, ?_⟩
  intro l hl
  have huntouched : ∀ op ∈ [FsOp.mkdirAll p, FsOp.create (Loc.staging p),
      FsOp.writeRows (Loc.staging p) old.rows], opWritesLoc op l = false := by
    intro op hop
    fin_cases hop <;>
      simp only [opWritesLoc, decide_eq_false_iff_not] <;>
      exact fun hc => hl hc.symm
  exact applyOps_untouched _ fs l huntouched

/-! ## Claims C1, C2, C6, C8, C9 -/

/-- Claim C1, counterexample: store rows a@100 (already archived) and
b@50 (never archived), existing 1970-01 file holding a@100.  The merge's
query window starts at the minimum watermark 100, so b@50 is never
queried: after the complete run (whose full operation trace touches only
the 1970-01 partition) the only partition file still holds just a@100,
and the valid record b@50 is in no partition file. -/
theorem no_loss_cex :
    (⟨"tb", "b", 50⟩ : VehiclePosition) ∈
      [(⟨"ta", "a", 100⟩ : VehiclePosition), ⟨"tb", "b", 50⟩] ∧
    (0 : Int) < 50 ∧
    (archivePartitions [⟨"ta", "a", 100⟩, ⟨"tb", "b", 50⟩]
        (fun l => if l = Loc.final ⟨1970, 1⟩
          then some ⟨[⟨"ta", "a", 100⟩], 1⟩ else none)).ops =
      [FsOp.mkdirAll ⟨1970, 1⟩, FsOp.create (Loc.staging ⟨1970, 1⟩),
       FsOp.writeRows (Loc.staging ⟨1970, 1⟩) [⟨"ta", "a", 100⟩],
       FsOp.writeRows (Loc.staging ⟨1970, 1⟩) [],
       FsOp.rename (Loc.staging ⟨1970, 1⟩) (Loc.final ⟨1970, 1⟩)] ∧
    (archivePartitions [⟨"ta", "a", 100⟩, ⟨"tb", "b", 50⟩]
        (fun l => if l = Loc.final ⟨1970, 1⟩
          then some ⟨[⟨"ta", "a", 100⟩], 1⟩ else none)).fs
        (Loc.final ⟨1970, 1⟩) = some ⟨[⟨"ta", "a", 100⟩], 1⟩ ∧
    (⟨"tb", "b", 50⟩ : VehiclePosition) ∉
      [(⟨"ta", "a", 100⟩ : VehiclePosition)] := by
  decide

/-- Claim C1, amended: a merge preserves rows as follows.  With no
pre-existing file, every store record with timestamp inside the month
window lands in the partition file; with a pre-existing (metadata-consistent)
file, every pre-existing row is preserved and every store record whose
timestamp is at least the merge's minUpdateTime, below the period end, and
strictly newer than its vehicle's watermark (if any) is appended.  Records
below minUpdateTime are outside the query window and are not guaranteed
(the gap the counterexample exhibits). -/
theorem no_loss_amended (db : List VehiclePosition) (fs : FsState) (p : Month) :
    (fs (Loc.final p) = none →
      ∀ r ∈ db, p.startSec ≤ r.timestamp → r.timestamp < p.endSec →
        ∃ f, (writePartition db fs p).fs (Loc.final p) = some f ∧ r ∈ f.rows) ∧
    (∀ old, fs (Loc.final p) = some old → old.numRows = old.rows.length →
      ∃ f, (writePartition db fs p).fs (Loc.final p) = some f ∧
        (∀ r ∈ old.rows, r ∈ f.rows) ∧
        ∀ r ∈ db, computeMinUpdateTime old.rows p.startSec ≤ r.timestamp →
          r.timestamp < p.endSec →
          (∀ lu, findLastUpdates old.rows emptyWM r.vehicleId = some lu →
            lu < r.timestamp) →
          r ∈ f.rows) := by
  constructor
  · intro h r hr hlo hhi
    obtain ⟨-, -, hfs, -⟩ := wp_fresh db fs p h
    refine ⟨_, hfs, ?_⟩
    rw [mem_appendedRows_iff]
    have hmt : computeMinUpdateTime [] p.startSec = p.startSec := rfl
    rw [hmt]
    refine ⟨hr, hlo, hhi, fun lu hlu => ?_⟩
    have : findLastUpdates [] emptyWM r.vehicleId = none := rfl
    rw [this] at hlu
    cases hlu
  · intro old h hnum
    obtain ⟨-, -, hfs, -⟩ := wp_existing_ok db fs p old h hnum
    refine ⟨_, hfs, ?_, ?_⟩
    · intro r hr
      exact List.mem_append_left _ hr
    · intro r hr hlo hhi hpass
      refine List.mem_append_right _ ?_
      rw [mem_appendedRows_iff]
      exact ⟨hr, hlo, hhi, hpass⟩

/-- Witness for the amended C1 theorem: a fresh merge of a one-row store. -/
theorem no_loss_amended_witness :
    (writePartition [⟨"t", "v", 100⟩] emptyFs ⟨1970, 1⟩).fs
        (Loc.final ⟨1970, 1⟩) = some ⟨[⟨"t", "v", 100⟩], 1⟩ ∧
    (⟨"t", "v", 100⟩ : VehiclePosition) ∈ [(⟨"t", "v", 100⟩ : VehiclePosition)] := by
  obtain ⟨f, hf, hr⟩ :=
    (no_loss_amended [⟨"t", "v", 100⟩] emptyFs ⟨1970, 1⟩).1 rfl
      ⟨"t", "v", 100⟩ (List.mem_cons_self _ _) (by decide) (by decide)
  have hev : (writePartition [⟨"t", "v", 100⟩] emptyFs ⟨1970, 1⟩).fs
      (Loc.final ⟨1970, 1⟩) = some ⟨[⟨"t", "v", 100⟩], 1⟩ := by decide
  rw [hev] at hf
  have hfv : f = ⟨[⟨"t", "v", 100⟩], 1⟩ := (Option.some_inj.mp hf).symm
  rw [hfv] at hr
  exact ⟨hev, hr⟩

/-- Claim C2, counterexample: the store's uniqueness constraint is on
(trip_id, timestamp) only, so two rows with the same vehicle id and
timestamp but different trip ids can both be stored; a first merge (no
existing file, empty watermark map) appends both, and the partition file
then carries two rows of the same vehicle with the same timestamp. -/
theorem per_vehicle_uniqueness_cex :
    (archivePartitions [⟨"t1", "v", 5⟩, ⟨"t2", "v", 5⟩] emptyFs).fs
        (Loc.final ⟨1970, 1⟩) =
      some ⟨[⟨"t1", "v", 5⟩, ⟨"t2", "v", 5⟩], 2⟩ ∧
    (⟨"t1", "v", 5⟩ : VehiclePosition) ≠ ⟨"t2", "v", 5⟩ ∧
    (⟨"t1", "v", 5⟩ : VehiclePosition).vehicleId =
      (⟨"t2", "v", 5⟩ : VehiclePosition).vehicleId ∧
    (⟨"t1", "v", 5⟩ : VehiclePosition).timestamp =
      (⟨"t2", "v", 5⟩ : VehiclePosition).timestamp := by
  decide

/-- Claim C2, amended: what the watermark filter does guarantee is that a
row appended by a merge is strictly newer than every row of the same
non-empty vehicle id already present in the pre-existing file, so an
appended row never duplicates a (vehicle id, timestamp) pair of the copied
rows.  Duplicates within one append batch, or rows with an empty vehicle
id, remain possible. -/
theorem per_vehicle_uniqueness_amended (db oldRows : List VehiclePosition)
    (p : Month) (r r' : VehiclePosition) (hr : r ∈ appendedRows db oldRows p)
    (hv : r.vehicleId ≠ "") (hr' : r' ∈ oldRows)
    (hv' : r'.vehicleId = r.vehicleId) : r'.timestamp < r.timestamp := by
  obtain ⟨-, -, -, hpass⟩ := (mem_appendedRows_iff db oldRows p r).mp hr
  cases hwm : findLastUpdates oldRows emptyWM r.vehicleId with
  | none => exact absurd hv' ((wm_none_iff oldRows r.vehicleId hv).mp hwm r' hr')
  | some lu =>
    have h1 := hpass lu hwm
    obtain ⟨-, hub⟩ := wm_some_char oldRows r.vehicleId hv lu hwm
    have := hub r' hr' hv'
    omega

/-- Witness for the amended C2 theorem. -/
theorem per_vehicle_uniqueness_amended_witness :
    (⟨"s", "v", 5⟩ : VehiclePosition).timestamp <
      (⟨"t", "v", 9⟩ : VehiclePosition).timestamp :=
  per_vehicle_uniqueness_amended [⟨"t", "v", 9⟩] [⟨"s", "v", 5⟩] ⟨1970, 1⟩
    ⟨"t", "v", 9⟩ ⟨"s", "v", 5⟩ (by decide) (by decide)
    (List.mem_cons_self _ _) rfl

/-- Claim C6: with an existing partition file, a reader-reported row count
differing from the number of rows actually copied is fatal (the merge
panics); otherwise the merge completes with the staging file holding every
pre-existing row, copied before any appended row, and renames it over the
final path. -/
theorem copy_preservation (db : List VehiclePosition) (fs : FsState)
    (p : Month) (old : PartFile) (h : fs (Loc.final p) = some old) :
    (old.numRows ≠ old.rows.length → (writePartition db fs p).panicked = true) ∧
    (old.numRows = old.rows.length →
      (writePartition db fs p).panicked = false ∧
      (writePartition db fs p).ops =
        FsOp.mkdirAll p :: FsOp.create (Loc.staging p) ::
          FsOp.writeRows (Loc.staging p) old.rows ::
          ((rowGroups (appendedRows db old.rows p)).map
            (FsOp.writeRows (Loc.staging p)) ++
            [FsOp.rename (Loc.staging p) (Loc.final p)]) ∧
      (writePartition db fs p).fs (Loc.final p) =
        some ⟨old.rows ++ appendedRows db old.rows p,
          (old.rows ++ appendedRows db old.rows p).length⟩) := by
  constructor
  · intro hne
    exact (wp_existing_panic db fs p old h hne).1
  · intro hnum
    refine ⟨(wp_existing_ok db fs p old h hnum).1, ?_, ?_⟩
    · simp only [writePartition, h, if_pos hnum]
      rfl
    · exact (wp_existing_ok db fs p old h hnum).2.2.1

/-- Witness for the C6 theorem: a mismatching reader count panics, a
consistent one completes. -/
theorem copy_preservation_witness :
    (writePartition []
        (fun l => if l = Loc.final ⟨1970, 1⟩ then some ⟨[], 5⟩ else none)
        ⟨1970, 1⟩).panicked = true ∧
    (writePartition []
        (fun l => if l = Loc.final ⟨1970, 1⟩
          then some ⟨[⟨"x", "a", 5⟩], 1⟩ else none)
        ⟨1970, 1⟩).panicked = false := by
  constructor
  · exact (copy_preservation []
      (fun l => if l = Loc.final ⟨1970, 1⟩ then some ⟨[], 5⟩ else none)
      ⟨1970, 1⟩ ⟨[], 5⟩ rfl).1 (by decide)
  · exact ((copy_preservation []
      (fun l => if l = Loc.final ⟨1970, 1⟩
        then some ⟨[⟨"x", "a", 5⟩], 1⟩ else none)
      ⟨1970, 1⟩ ⟨[⟨"x", "a", 5⟩], 1⟩ rfl).2 (by decide)).1

/-- Claim C8: when the month already has a partition file, every file
operation before the final rename (and, on a panic, every operation of
the halted merge) leaves the final path's contents untouched: applying
any such prefix of the merge's operation trace still shows the original
file at the final path. -/
theorem crash_safety (db : List VehiclePosition) (fs : FsState) (p : Month)
    (old : PartFile) (h : fs (Loc.final p) = some old) :
    ∀ k : Nat, (k < (writePartition db fs p).ops.length ∨
        (writePartition db fs p).panicked = true) →
      applyOps fs ((writePartition db fs p).ops.take k) (Loc.final p) =
        some old := by
  by_cases hnum : old.numRows = old.rows.length
  · simp only [writePartition, h, if_pos hnum]
    intro k hk
    rcases hk with hk | hk
    · have hlen : k ≤ (FsOp.mkdirAll p :: FsOp.create (Loc.staging p) ::
          FsOp.writeRows (Loc.staging p) old.rows ::
          (rowGroups (appendedRows db old.rows p)).map
            (FsOp.writeRows (Loc.staging p))).length := by
        simp only [List.length_append, List.length_cons, List.length_map,
          List.length_singleton, List.length_nil] at hk ⊢
        omega
      rw [List.take_append_of_le_length hlen]
      have hall : ∀ op ∈ (FsOp.mkdirAll p :: FsOp.create (Loc.staging p) ::
          FsOp.writeRows (Loc.staging p) old.rows ::
          (rowGroups (appendedRows db old.rows p)).map
            (FsOp.writeRows (Loc.staging p))).take k,
          opWritesLoc op (Loc.final p) = false := by
        intro op hop
        have hopA := List.take_subset k _ hop
        rcases List.mem_cons.mp hopA with rfl | hopA
        · rfl
        rcases List.mem_cons.mp hopA with rfl | hopA
        · simp only [opWritesLoc, decide_eq_false_iff_not]
          exact fun hc => final_ne_staging p p hc.symm
        rcases List.mem_cons.mp hopA with rfl | hopA
        · simp only [opWritesLoc, decide_eq_false_iff_not]
          exact fun hc => final_ne_staging p p hc.symm
        obtain ⟨g, -, rfl⟩ := List.mem_map.mp hopA
        simp only [opWritesLoc, decide_eq_false_iff_not]
        exact fun hc => final_ne_staging p p hc.symm
      rw [applyOps_untouched _ fs _ hall]
      exact h
    · simp at hk
  · simp only [writePartition, h, if_neg hnum]
    intro k hk
    have hall : ∀ op ∈ ([FsOp.mkdirAll p, FsOp.create (Loc.staging p),
        FsOp.writeRows (Loc.staging p) old.rows]).take k,
        opWritesLoc op (Loc.final p) = false := by
      intro op hop
      have hopA := List.take_subset k _ hop
      fin_cases hopA
      · rfl
      · simp only [opWritesLoc, decide_eq_false_iff_not]
        exact fun hc => final_ne_staging p p hc.symm
      · simp only [opWritesLoc, decide_eq_false_iff_not]
        exact fun hc => final_ne_staging p p hc.symm
    rw [applyOps_untouched _ fs _ hall]
    exact h

/-- Witness for the C8 theorem: after the copy to the staging path (three
operations into the merge), the final path still holds the old file. -/
theorem crash_safety_witness :
    applyOps
      (fun l => if l = Loc.final ⟨1970, 1⟩ then some ⟨[⟨"x", "a", 5⟩], 1⟩ else none)
      ((writePartition []
        (fun l => if l = Loc.final ⟨1970, 1⟩ then some ⟨[⟨"x", "a", 5⟩], 1⟩ else none)
        ⟨1970, 1⟩).ops.take 3)
      (Loc.final ⟨1970, 1⟩) = some ⟨[⟨"x", "a", 5⟩], 1⟩ :=
  crash_safety []
    (fun l => if l = Loc.final ⟨1970, 1⟩ then some ⟨[⟨"x", "a", 5⟩], 1⟩ else none)
    ⟨1970, 1⟩ ⟨[⟨"x", "a", 5⟩], 1⟩ rfl 3 (Or.inl (by decide))

/-- Claim C9: the watermark map never acquires an entry for the empty
vehicle id, so a store row with an empty vehicle id that sits inside the
re-run's query window is appended again by the second merge: the merged
file's multiplicity of that row grows. -/
theorem empty_vehicle_id_duplication (db oldRows : List VehiclePosition)
    (p : Month) (r : VehiclePosition) (hr : r ∈ db) (hv : r.vehicleId = "")
    (hlo : computeMinUpdateTime (mergedRows db oldRows p) p.startSec ≤
      r.timestamp)
    (hhi : r.timestamp < p.endSec) :
    (∀ rows : List VehiclePosition,
      findLastUpdates rows emptyWM "" = none) ∧
    (mergedRows db (mergedRows db oldRows p) p).count r ≥
      (mergedRows db oldRows p).count r + 1 := by
  refine ⟨fun rows => by rw [findLastUpdates_empty_id]; rfl, ?_⟩
  have hwm : findLastUpdates (mergedRows db oldRows p) emptyWM r.vehicleId
      = none := by
    rw [hv, findLastUpdates_empty_id]
    rfl
  have hrApp : r ∈ appendedRows db (mergedRows db oldRows p) p := by
    rw [mem_appendedRows_iff]
    refine ⟨hr, hlo, hhi, fun lu hlu => ?_⟩
    rw [hwm] at hlu
    cases hlu
  have hc : 1 ≤ (appendedRows db (mergedRows db oldRows p) p).count r := by
    by_contra hcon
    push_neg at hcon
    have h0 : (appendedRows db (mergedRows db oldRows p) p).count r = 0 := by
      omega
    exact (List.count_eq_zero.mp h0) hrApp
  have hsplit : mergedRows db (mergedRows db oldRows p) p =
      mergedRows db oldRows p ++ appendedRows db (mergedRows db oldRows p) p :=
    rfl
  rw [hsplit, List.count_append]
  omega

/-- Witness for the C9 theorem: a second merge duplicates the empty-id row. -/
theorem empty_vehicle_id_duplication_witness :
    (mergedRows [⟨"t", "", 100⟩] (mergedRows [⟨"t", "", 100⟩] [] ⟨1970, 1⟩)
        ⟨1970, 1⟩).count ⟨"t", "", 100⟩ ≥
      (mergedRows [⟨"t", "", 100⟩] [] ⟨1970, 1⟩).count ⟨"t", "", 100⟩ + 1 :=
  (empty_vehicle_id_duplication [⟨"t", "", 100⟩] [] ⟨1970, 1⟩ ⟨"t", "", 100⟩
    (List.mem_cons_self _ _) rfl (by decide) (by decide)).2

/-! ## Run-level lemmas -/

theorem wp_mkdir_mem (db : List VehiclePosition) (fs : FsState) (p : Month) :
    FsOp.mkdirAll p ∈ (writePartition db fs p).ops := by
  cases hfp : fs (Loc.final p) with
  | none =>
    simp only [writePartition, hfp]
    exact List.mem_append_left _ (List.mem_cons_self _ _)
  | some old =>
    by_cases hnum : old.numRows = old.rows.length
    · simp only [writePartition, hfp, if_pos hnum]
      exact List.mem_append_left _ (List.mem_cons_self _ _)
    · simp only [writePartition, hfp, if_neg hnum]
      exact List.mem_cons_self _ _

theorem wp_preserves_some (db : List VehiclePosition) (fs : FsState)
    (p q : Month) (f : PartFile) (h : fs (Loc.final q) = some f) :
    ∃ f', (writePartition db fs p).fs (Loc.final q) = some f' := by
  by_cases hqp : q = p
  · subst hqp
    by_cases hnum : f.numRows = f.rows.length
    · exact ⟨_, (wp_existing_ok db fs q f h hnum).2.2.1⟩
    · obtain ⟨-, -, ho⟩ := wp_existing_panic db fs q f h hnum
      exact ⟨f, by rw [ho (Loc.final q) (final_ne_staging q q)]; exact h⟩
  · have hne : Loc.final q ≠ Loc.final p := by simp [hqp]
    cases hfp : fs (Loc.final p) with
    | none =>
      obtain ⟨-, -, -, ho⟩ := wp_fresh db fs p hfp
      exact ⟨f, by rw [ho (Loc.final q) hne]; exact h⟩
    | some old =>
      by_cases hnum : old.numRows = old.rows.length
      · obtain ⟨-, -, -, ho⟩ := wp_existing_ok db fs p old hfp hnum
        exact ⟨f, by rw [ho (Loc.final q) hne (final_ne_staging q p)]; exact h⟩
      · obtain ⟨-, -, ho⟩ := wp_existing_panic db fs p old hfp hnum
        exact ⟨f, by rw [ho (Loc.final q) (final_ne_staging q p)]; exact h⟩

theorem wp_some_after (db : List VehiclePosition) (fs : FsState) (p : Month)
    (hpk : (writePartition db fs p).panicked = false) :
    ∃ f, (writePartition db fs p).fs (Loc.final p) = some f := by
  cases hfp : fs (Loc.final p) with
  | none => exact ⟨_, (wp_fresh db fs p hfp).2.2.1⟩
  | some old =>
    by_cases hnum : old.numRows = old.rows.length
    · exact ⟨_, (wp_existing_ok db fs p old hfp hnum).2.2.1⟩
    · rw [(wp_existing_panic db fs p old hfp hnum).1] at hpk
      cases hpk

theorem runMonths_preserves_some (db : List VehiclePosition)
    (ms : List Month) (fs : FsState) (q : Month) (f : PartFile)
    (h : fs (Loc.final q) = some f) :
    ∃ f', (runMonths db ms fs).fs (Loc.final q) = some f' := by
  induction ms generalizing fs f with
  | nil => exact ⟨f, h⟩
  | cons p rest ih =>
    obtain ⟨f1, hf1⟩ := wp_preserves_some db fs p q f h
    by_cases hpk : (writePartition db fs p).panicked = true
    · simp only [runMonths, if_pos hpk]
      exact ⟨f1, hf1⟩
    · simp only [runMonths, if_neg hpk]
      exact ih (writePartition db fs p).fs f1 hf1

theorem runMonths_writes (db : List VehiclePosition) (ms : List Month)
    (fs : FsState) (h : (runMonths db ms fs).panicked = false) :
    ∀ p ∈ ms,
      (∃ f, (runMonths db ms fs).fs (Loc.final p) = some f) ∧
      FsOp.mkdirAll p ∈ (runMonths db ms fs).ops := by
  induction ms generalizing fs with
  | nil => intro p hp; cases hp
  | cons q rest ih =>
    by_cases hpk : (writePartition db fs q).panicked = true
    · simp only [runMonths, if_pos hpk] at h
      cases h
    · simp only [runMonths, if_neg hpk] at h ⊢
      intro p hp
      rcases List.mem_cons.mp hp with rfl | hp
      · constructor
        · obtain ⟨f, hf⟩ := wp_some_after db fs p (by
            cases hb : (writePartition db fs p).panicked
            · rfl
            · exact absurd hb hpk)
          exact runMonths_preserves_some db rest _ p f hf
        · exact List.mem_append_left _ (wp_mkdir_mem db fs p)
      · obtain ⟨h1, h2⟩ := ih (writePartition db fs q).fs h p hp
        exact ⟨h1, List.mem_append_right _ h2⟩

theorem wp_step_wf (db : List VehiclePosition) (fs : FsState) (p : Month)
    (Hdb : WFdb db) (Hfs : WFfs fs) :
    (writePartition db fs p).panicked = false ∧
    WFfs (writePartition db fs p).fs ∧
    (∃ f, (writePartition db fs p).fs (Loc.final p) = some f ∧ StableAt db p f) ∧
    (∀ q, q ≠ p →
      (writePartition db fs p).fs (Loc.final q) = fs (Loc.final q)) := by
  cases hfp : fs (Loc.final p) with
  | none =>
    obtain ⟨hp, -, hfin, ho⟩ := wp_fresh db fs p hfp
    have happ : ∀ r ∈ appendedRows db [] p, r.timestamp ≠ goZeroSec := by
      intro r hr
      exact (Hdb r ((mem_appendedRows_iff db [] p r).mp hr).1).2
    have hstable : appendedRows db (appendedRows db [] p) p = [] := by
      have := merge_stable db [] p Hdb (by intro r hr; cases hr)
      simpa [mergedRows] using this
    have hfile : StableAt db p ⟨appendedRows db [] p,
        (appendedRows db [] p).length⟩ := ⟨hstable, rfl, happ⟩
    refine ⟨hp, ?_, ⟨_, hfin, hfile⟩, ?_⟩
    · intro q f hq
      by_cases hqp : q = p
      · rw [hqp, hfin] at hq
        have : f = ⟨appendedRows db [] p, (appendedRows db [] p).length⟩ :=
          (Option.some_inj.mp hq).symm
        rw [this]
        exact ⟨rfl, happ⟩
      · rw [ho (Loc.final q) (by simp [hqp])] at hq
        exact Hfs q f hq
    · intro q hqp
      exact ho (Loc.final q) (by simp [hqp])
  | some old =>
    obtain ⟨hnum, hts⟩ := Hfs p old hfp
    obtain ⟨hp, -, hfin, ho⟩ := wp_existing_ok db fs p old hfp hnum
    have hmts : ∀ r ∈ mergedRows db old.rows p, r.timestamp ≠ goZeroSec := by
      intro r hr
      rcases List.mem_append.mp hr with h | h
      · exact hts r h
      · exact (Hdb r ((mem_appendedRows_iff db old.rows p r).mp h).1).2
    have hfile : StableAt db p ⟨mergedRows db old.rows p,
        (mergedRows db old.rows p).length⟩ :=
      ⟨merge_stable db old.rows p Hdb hts, rfl, hmts⟩
    refine ⟨hp, ?_, ⟨_, hfin, hfile⟩, ?_⟩
    · intro q f hq
      by_cases hqp : q = p
      · rw [hqp, hfin] at hq
        have : f = ⟨mergedRows db old.rows p, (mergedRows db old.rows p).length⟩ :=
          (Option.some_inj.mp hq).symm
        rw [this]
        exact ⟨rfl, hmts⟩
      · rw [ho (Loc.final q) (by simp [hqp]) (final_ne_staging q p)] at hq
        exact Hfs q f hq
    · intro q hqp
      exact ho (Loc.final q) (by simp [hqp]) (final_ne_staging q p)

theorem runMonths_run1 (db : List VehiclePosition) (ms : List Month)
    (fs : FsState) (Hdb : WFdb db) (Hfs : WFfs fs) :
    (runMonths db ms fs).panicked = false ∧
    WFfs (runMonths db ms fs).fs ∧
    (∀ p ∈ ms, ∃ f, (runMonths db ms fs).fs (Loc.final p) = some f ∧
      StableAt db p f) ∧
    (∀ p, p ∉ ms →
      (runMonths db ms fs).fs (Loc.final p) = fs (Loc.final p)) := by
  induction ms generalizing fs with
  | nil =>
    exact ⟨rfl, Hfs, fun p hp => absurd hp (List.not_mem_nil p),
      fun p _ => rfl⟩
  | cons q rest ih =>
    obtain ⟨hpk0, hWF, ⟨fq, hfq, hstq⟩, huntouched⟩ := wp_step_wf db fs q Hdb Hfs
    have hpk : ¬ ((writePartition db fs q).panicked = true) := by
      rw [hpk0]
      simp
    simp only [runMonths, if_neg hpk]
    obtain ⟨ih1, ih2, ih3, ih4⟩ := ih (writePartition db fs q).fs hWF
    refine ⟨ih1, ih2, ?_, ?_⟩
    · intro p hp
      rcases List.mem_cons.mp hp with rfl | hp
      · by_cases hin : p ∈ rest
        · exact ih3 p hin
        · exact ⟨fq, by rw [ih4 p hin]; exact hfq, hstq⟩
      · exact ih3 p hp
    · intro p hnp
      have hq : p ≠ q := fun hc => hnp (hc ▸ List.mem_cons_self q rest)
      have hrest : p ∉ rest := fun hc => hnp (List.mem_cons_of_mem q hc)
      rw [ih4 p hrest, huntouched p hq]

theorem stable_merge_noop (db : List VehiclePosition) (p : Month)
    (f : PartFile) (hst : StableAt db p f) (fs : FsState)
    (h : fs (Loc.final p) = some f) :
    (writePartition db fs p).panicked = false ∧
    (writePartition db fs p).nNew = 0 ∧
    (∀ q, (writePartition db fs p).fs (Loc.final q) = fs (Loc.final q)) := by
  obtain ⟨hstable, hnum, -⟩ := hst
  obtain ⟨hp, hn, hfin, ho⟩ := wp_existing_ok db fs p f h hnum
  refine ⟨hp, by rw [hn, hstable]; rfl, ?_⟩
  intro q
  by_cases hq : q = p
  · subst hq
    rw [hfin, h]
    have hm : mergedRows db f.rows q = f.rows := by
      rw [show mergedRows db f.rows q = f.rows ++ appendedRows db f.rows q
        from rfl, hstable, List.append_nil]
    rw [hm]
    cases f with
    | mk rows numRows =>
      simp only at hnum
      simp [hnum]
  · rw [ho (Loc.final q) (by simp [hq]) (final_ne_staging q p)]

theorem runMonths_run2 (db : List VehiclePosition) (ms : List Month)
    (fs : FsState)
    (h : ∀ p ∈ ms, ∃ f, fs (Loc.final p) = some f ∧ StableAt db p f) :
    (runMonths db ms fs).panicked = false ∧
    (runMonths db ms fs).nNew = 0 ∧
    (∀ q, (runMonths db ms fs).fs (Loc.final q) = fs (Loc.final q)) := by
  induction ms generalizing fs with
  | nil => exact ⟨rfl, rfl, fun q => rfl⟩
  | cons p rest ih =>
    obtain ⟨f, hf, hst⟩ := h p (List.mem_cons_self p rest)
    obtain ⟨hpk0, hnew, hsame⟩ := stable_merge_noop db p f hst fs hf
    have hpk : ¬ ((writePartition db fs p).panicked = true) := by
      rw [hpk0]
      simp
    simp only [runMonths, if_neg hpk]
    have hrest : ∀ q ∈ rest, ∃ f, (writePartition db fs p).fs (Loc.final q) =
        some f ∧ StableAt db q f := by
      intro q hq
      obtain ⟨fq, hfq, hstq⟩ := h q (List.mem_cons_of_mem p hq)
      exact ⟨fq, by rw [hsame q]; exact hfq, hstq⟩
    obtain ⟨ih1, ih2, ih3⟩ := ih (writePartition db fs p).fs hrest
    refine ⟨ih1, ?_, ?_⟩
    · rw [hnew, ih2]
    · intro q
      rw [ih3 q, hsame q]

/-! ## Claims C5, C7, C10 -/

/-- Claim C5, counterexample: a store row with an empty vehicle id never
gets a watermark entry, so the second archive run (with no new store rows)
appends it again: the run reports one new row and the partition file has
the row twice. -/
theorem idempotence_cex :
    (archivePartitions [⟨"t", "", 100⟩] emptyFs).nNew = 1 ∧
    (archivePartitions [⟨"t", "", 100⟩] emptyFs).fs (Loc.final ⟨1970, 1⟩) =
      some ⟨[⟨"t", "", 100⟩], 1⟩ ∧
    (archivePartitions [⟨"t", "", 100⟩]
        (archivePartitions [⟨"t", "", 100⟩] emptyFs).fs).nNew = 1 ∧
    (archivePartitions [⟨"t", "", 100⟩]
        (archivePartitions [⟨"t", "", 100⟩] emptyFs).fs).fs
        (Loc.final ⟨1970, 1⟩) =
      some ⟨[⟨"t", "", 100⟩, ⟨"t", "", 100⟩], 2⟩ := by
  decide

/-- Claim C5, amended: when every store row has a non-empty vehicle id and
no timestamp (in the store or in pre-existing partition files) equals the
Go zero instant, a second archive run with the same store appends zero new
rows, does not panic, and leaves every partition file unchanged. -/
theorem idempotence_amended (db : List VehiclePosition) (fs : FsState)
    (Hdb : WFdb db) (Hfs : WFfs fs) :
    (archivePartitions db (archivePartitions db fs).fs).nNew = 0 ∧
    (archivePartitions db (archivePartitions db fs).fs).panicked = false ∧
    ∀ p, (archivePartitions db (archivePartitions db fs).fs).fs (Loc.final p) =
      (archivePartitions db fs).fs (Loc.final p) := by
  obtain ⟨-, -, h3, -⟩ := runMonths_run1 db
    (monthRange (findArchiveRange db).1 (findArchiveRange db).2) fs Hdb Hfs
  obtain ⟨g1, g2, g3⟩ := runMonths_run2 db
    (monthRange (findArchiveRange db).1 (findArchiveRange db).2)
    (runMonths db (monthRange (findArchiveRange db).1 (findArchiveRange db).2)
      fs).fs h3
  exact ⟨g2, g1, g3⟩

/-- Witness for the amended C5 theorem: re-running on a one-row store is a
no-op. -/
theorem idempotence_amended_witness :
    (archivePartitions [⟨"t", "v", 100⟩]
        (archivePartitions [⟨"t", "v", 100⟩] emptyFs).fs).nNew = 0 ∧
    (archivePartitions [⟨"t", "v", 100⟩]
        (archivePartitions [⟨"t", "v", 100⟩] emptyFs).fs).fs
        (Loc.final ⟨1970, 1⟩) =
      (archivePartitions [⟨"t", "v", 100⟩] emptyFs).fs
        (Loc.final ⟨1970, 1⟩) := by
  have h := idempotence_amended [⟨"t", "v", 100⟩] emptyFs
    (by simp only [WFdb]; decide)
    (fun p f hc => absurd hc (by simp [emptyFs]))
  exact ⟨h.1, h.2.2 ⟨1970, 1⟩⟩

/-- Claim C7 is wrong about the code: with a store holding no row with a
positive timestamp, the range query yields empty strings, but
findArchiveRange then returns the zero time.Time months with a nil error,
and the driver runs one iteration for the zero period: it creates the
year-1 January partition directory and writes an empty partition file
there, rather than performing zero file operations. -/
theorem empty_store_bug :
    hasValidData [(⟨"t", "v", 0⟩ : VehiclePosition)] = false ∧
    findArchiveRange [⟨"t", "v", 0⟩] = (⟨1, 1⟩, ⟨1, 1⟩) ∧
    (archivePartitions [⟨"t", "v", 0⟩] emptyFs).ops =
      [FsOp.mkdirAll ⟨1, 1⟩, FsOp.create (Loc.final ⟨1, 1⟩),
       FsOp.writeRows (Loc.final ⟨1, 1⟩) [],
       FsOp.rename (Loc.final ⟨1, 1⟩) (Loc.final ⟨1, 1⟩)] ∧
    (archivePartitions [⟨"t", "v", 0⟩] emptyFs).fs (Loc.final ⟨1, 1⟩) =
      some ⟨[], 0⟩ := by
  decide

/-- Claim C10: every month in the inclusive computed range — including
months for which the store holds no rows — gets its partition directory
created and a partition file written, provided the run does not panic. -/
theorem partition_written (db : List VehiclePosition) (fs : FsState)
    (p : Month)
    (hp : p ∈ monthRange (findArchiveRange db).1 (findArchiveRange db).2)
    (hok : (archivePartitions db fs).panicked = false) :
    (∃ f, (archivePartitions db fs).fs (Loc.final p) = some f) ∧
    FsOp.mkdirAll p ∈ (archivePartitions db fs).ops :=
  runMonths_writes db
    (monthRange (findArchiveRange db).1 (findArchiveRange db).2) fs hok p hp

/-- Witness for the C10 theorem: a store with rows in 1970-01 and 1970-03
makes the run write a partition for the row-less middle month 1970-02. -/
theorem partition_written_witness :
    (archivePartitions [⟨"a", "v", 100⟩, ⟨"b", "w", 5097600⟩] emptyFs).fs
        (Loc.final ⟨1970, 2⟩) = some ⟨[], 0⟩ ∧
    FsOp.mkdirAll ⟨1970, 2⟩ ∈
      (archivePartitions [⟨"a", "v", 100⟩, ⟨"b", "w", 5097600⟩] emptyFs).ops := by
  have h := partition_written [⟨"a", "v", 100⟩, ⟨"b", "w", 5097600⟩] emptyFs
    ⟨1970, 2⟩ (by decide) (by decide)
  exact ⟨by decide, h.2⟩

end GtfsScraper
